import Mathlib

/-!
Verification of the streaming chat core of `personal-assistant-web`.

The definitions below are a shallow embedding of the two places that
implement the stream protocol:

* the client-side reconciler, the frame loop of `handleSubmit` in
  `src/components/chat/EnhancedClaudeSession.tsx` (plus the `stop`
  handler and the pre-loop user-message append), and
* the server-side emitter, the chunk loop of the `POST /api/chat`
  handler in `server/index.js`.

JavaScript idioms are modelled explicitly: optional JSON fields are
`Option`s, the `a || b` fallback is `jsOr` (an empty string is falsy),
`Date.now()` is a monotone counter carried in the state, and
`JSON.parse` failure is the `malformed` frame constructor (the source
wraps the parse in `try`/`catch` and ignores the failure).
-/

namespace PAWeb

/-- JavaScript `a || b` for two optional string fields: `a` wins exactly
when it is present and non-empty (an empty string is falsy). -/
def jsOr (a b : Option String) : Option String :=
  match a with
  | some s => if s = "" then b else some s
  | none => b

/-- JavaScript `a || d` with a mandatory string default. -/
def jsOrD (a : Option String) (d : String) : String :=
  match a with
  | some s => if s = "" then d else s
  | none => d

/-- JavaScript `.toLowerCase()`, modelled as character-wise case folding
over the string's characters (extensionally `String.toLower`, written
over `.data` so that it evaluates inside the kernel). -/
def lowerStr (s : String) : String :=
  String.mk (s.data.map Char.toLower)

/-- JavaScript `.trim()`: strip leading and trailing whitespace
(extensionally `String.trim`, written over `.data` so that it evaluates
inside the kernel). -/
def trimStr (s : String) : String :=
  String.mk (((s.data.dropWhile Char.isWhitespace).reverse.dropWhile
    Char.isWhitespace).reverse)

/-- Tool input payload.  The reconciler only ever inspects the `todos`
field of the input (for the TodoWrite special case); everything else is
carried opaquely, so the payload is modelled by that one optional field
(todo items as opaque strings). -/
structure ToolInput where
  todos : Option (List String)
deriving DecidableEq, Repr

/-- The `usage` object of a `result` payload (token counts). -/
structure Usage where
  inputTokens : Nat
  outputTokens : Nat
deriving DecidableEq, Repr

/-- A pending or completed tool execution, mirroring the `ToolExecution`
interface of `src/types/claude.ts`; entries live in the
`currentToolExecutions` map of `handleSubmit`. -/
structure ToolExecution where
  id : String
  name : String
  input : ToolInput
  isComplete : Bool
  startTime : Nat
  endTime : Option Nat
  result : Option String
  error : Option String
deriving DecidableEq, Repr

/-- Message identifiers.  The source builds them with template literals
(`assistant-${Date.now()}`, `tool-use-${toolId}`, ...); each template is
one constructor, applied to the timestamp or tool id it interpolates. -/
inductive MsgId where
  | userStamp (t : Nat)
  | initStamp (t : Nat)
  | assistantStamp (t : Nat)
  | resultStamp (t : Nat)
  | errorStamp (t : Nat)
  | toolUseFor (toolId : String)
  | toolResultFor (toolId : String)
  | todoStamp (t : Nat)
deriving DecidableEq, Repr

/-- Kind-specific fields of a log entry, following the discriminated
union `ClaudeStreamMessage` of `src/types/claude.ts` restricted to the
fields each `addMessage` call site actually sets. -/
inductive MsgKind where
  | user (content : String)
  | init (sessionId : Option String) (model : Option String) (tools : Option (List String))
  | assistant (content : Option String) (messageId : Option String)
  | result (content : String) (success : Option Bool) (duration : Option Nat)
      (cost : Option Nat) (usage : Option Usage) (error : Option String)
  | toolUse (toolName : String) (input : ToolInput) (toolId : String)
  | toolResult (toolName : String) (input : Option ToolInput) (result : String)
      (toolId : Option String) (error : Option String)
deriving DecidableEq, Repr

/-- One entry of the ordered message log. -/
structure Msg where
  id : MsgId
  timestamp : Nat
  kind : MsgKind
deriving DecidableEq, Repr

/-- One item of the `message.content` array found inside a `debug`
envelope (`{"type":"tool_use","id","name","input"}` or
`{"type":"tool_result","tool_use_id","content","is_error"}`); any other
shape is skipped by the `forEach` loops. -/
inductive ContentItem where
  | toolUse (id : String) (name : String) (input : ToolInput)
  | toolResult (toolUseId : String) (content : String) (isError : Bool)
  | otherItem
deriving DecidableEq, Repr

/-- The `data` payload of a `debug` frame: its inner `type` string and,
when `message.content` is an array, that array. -/
structure DebugData where
  dtype : String
  content : Option (List ContentItem)
deriving DecidableEq, Repr

/-- A successfully parsed SSE JSON payload, tagged by its `type` field;
`other` covers every type string the client's `switch` has no case for. -/
inductive Parsed where
  | init (sessionId : Option String) (model : Option String) (tools : Option (List String))
  | text (text : Option String) (fullText : Option String) (messageId : Option String)
  | result (success : Option Bool) (duration : Option Nat) (cost : Option Nat)
      (usage : Option Usage)
  | debug (data : DebugData)
  | error (err : String)
  | other (ty : String)
deriving DecidableEq, Repr

/-- One line of the decoded byte stream as the client loop classifies it:
a line that does not start with `data: `, the literal `[DONE]` sentinel,
a data payload on which `JSON.parse` throws, or a parsed payload. -/
inductive Frame where
  | notData
  | done
  | malformed
  | event (p : Parsed)
deriving DecidableEq, Repr

/-- Client-side session state: the rendered message log, the
`isGenerating` flag (`streaming` vs `idle`), the id of the open
assistant message (`currentAssistantMessage`), the per-turn tool
correlation map (`currentToolExecutions`, insertion-ordered like a JS
`Map`), and the clock standing for `Date.now()`. -/
structure ClientState where
  messages : List Msg
  isGenerating : Bool
  currentAssistant : Option MsgId
  tools : List (String × ToolExecution)
  now : Nat
deriving DecidableEq, Repr

/-- JS `Map.set`: overwrite in place if the key exists, else append. -/
def mapSet (m : List (String × ToolExecution)) (k : String) (v : ToolExecution) :
    List (String × ToolExecution) :=
  match m with
  | [] => [(k, v)]
  | (k', v') :: rest => if k' = k then (k, v) :: rest else (k', v') :: mapSet rest k v

/-- JS `Map.get`. -/
def mapGet (m : List (String × ToolExecution)) (k : String) : Option ToolExecution :=
  match m with
  | [] => none
  | (k', v') :: rest => if k' = k then some v' else mapGet rest k

/-- The in-place content update `prev.map(msg => msg.id === id ? {...msg,
content} : msg)`.  In the source only assistant messages carry an
`assistant-` id, so the spread only ever lands on an assistant message;
the model updates the content field of an assistant kind and leaves any
other kind unchanged. -/
def setContent (m : Msg) (c : Option String) : Msg :=
  match m.kind with
  | MsgKind.assistant _ mid => { m with kind := MsgKind.assistant c mid }
  | _ => m

/-- The `content.forEach` over `tool_use` items of a `debug` frame whose
inner `data.type` is `assistant` (EnhancedClaudeSession.tsx lines
177-203): each item records a pending execution in the correlation map
and appends a `tool_use` message. -/
def processAssistantItems (s : ClientState) (items : List ContentItem) : ClientState :=
  match items with
  | [] => s
  | ContentItem.toolUse tid name input :: rest =>
      let exec : ToolExecution :=
        { id := tid, name := name, input := input, isComplete := false,
          startTime := s.now, endTime := none, result := none, error := none }
      processAssistantItems
        { s with
          tools := mapSet s.tools tid exec,
          messages := s.messages ++
            [{ id := MsgId.toolUseFor tid, timestamp := s.now,
               kind := MsgKind.toolUse name input tid }] } rest
  | _ :: rest => processAssistantItems s rest

/-- The `content.forEach` over `tool_result` items of a `debug` frame
whose inner `data.type` is `user` (EnhancedClaudeSession.tsx lines
207-262).  The guard `item.tool_use_id` is JS truthiness, so an empty id
is skipped; an id with no pending record is skipped entirely (the
`if (toolExecution)` guard has no else branch); a found record is marked
complete in the map and a `tool_result` message is appended, plus a
synthetic TodoWrite message when the tool name is `todowrite`
case-insensitively and the recorded input has a `todos` field. -/
def processUserItems (s : ClientState) (items : List ContentItem) : ClientState :=
  match items with
  | [] => s
  | ContentItem.toolResult tid content isError :: rest =>
      if tid = "" then processUserItems s rest
      else
        match mapGet s.tools tid with
        | none => processUserItems s rest
        | some exec =>
            let updated : ToolExecution :=
              { exec with
                  result := some content, isComplete := true,
                  endTime := some s.now,
                  error := if isError then some content else none }
            let s1 : ClientState :=
              { s with
                tools := mapSet s.tools tid updated,
                messages := s.messages ++
                  [{ id := MsgId.toolResultFor tid, timestamp := s.now,
                     kind := MsgKind.toolResult exec.name (some exec.input) content
                       (some tid) (if isError then some content else none) }] }
            let s2 : ClientState :=
              if lowerStr exec.name = "todowrite" then
                match exec.input.todos with
                | some ts =>
                    { s1 with messages := s1.messages ++
                      [{ id := MsgId.todoStamp s1.now, timestamp := s1.now,
                         kind := MsgKind.toolResult "TodoWrite"
                           (some { todos := some ts })
                           "Todo list updated successfully" none none }] }
                | none => s1
              else s1
            processUserItems s2 rest
  | _ :: rest => processUserItems s rest

/-- The `case 'text'` branch (EnhancedClaudeSession.tsx lines 135-156):
when no assistant message is open, one is created with empty content and
remembered in `currentAssistantMessage`; then the content of the entry
with that id is set to `parsed.fullText || parsed.text`. -/
def processText (s : ClientState) (text fullText messageId : Option String) :
    ClientState :=
  let s1 : ClientState :=
    match s.currentAssistant with
    | some _ => s
    | none =>
        { s with
          messages := s.messages ++
            [{ id := MsgId.assistantStamp s.now, timestamp := s.now,
               kind := MsgKind.assistant (some "") messageId }],
          currentAssistant := some (MsgId.assistantStamp s.now) }
  let updatedContent := jsOr fullText text
  let s2 : ClientState :=
    match s1.currentAssistant with
    | some aid =>
        { s1 with messages :=
            s1.messages.map fun m =>
              if m.id = aid then setContent m updatedContent else m }
    | none => s1
  { s2 with now := s2.now + 1 }

/-- The `case 'debug'` branch (EnhancedClaudeSession.tsx lines 171-263):
the two sequential `if`s on the envelope's inner `data.type`. -/
def processDebug (s : ClientState) (data : DebugData) : ClientState :=
  let s1 : ClientState :=
    if data.dtype = "assistant" then
      match data.content with
      | some items => processAssistantItems s items
      | none => s
    else s
  let s2 : ClientState :=
    if data.dtype = "user" then
      match data.content with
      | some items => processUserItems s1 items
      | none => s1
    else s1
  { s2 with now := s2.now + 1 }

/-- One iteration of the frame loop of `handleSubmit`
(EnhancedClaudeSession.tsx lines 110-282): non-`data:` lines are
skipped, the literal `[DONE]` clears `isGenerating` and appends nothing,
a payload on which `JSON.parse` throws is caught and ignored, and a
parsed payload is dispatched on `parsed.type`; a type with no `switch`
case falls through without effect.  `Date.now()` is the counter `now`,
constant within one frame and advanced after each parsed frame. -/
def processFrame (s : ClientState) (f : Frame) : ClientState :=
  match f with
  | Frame.notData => s
  | Frame.done => { s with isGenerating := false }
  | Frame.malformed => s
  | Frame.event p =>
      match p with
      | Parsed.init sessionId model tools =>
          { s with
            messages := s.messages ++
              [{ id := MsgId.initStamp s.now, timestamp := s.now,
                 kind := MsgKind.init sessionId model tools }],
            now := s.now + 1 }
      | Parsed.text text fullText messageId => processText s text fullText messageId
      | Parsed.result success duration cost usage =>
          { s with
            messages := s.messages ++
              [{ id := MsgId.resultStamp s.now, timestamp := s.now,
                 kind := MsgKind.result "Execution completed" success duration
                   cost usage none }],
            now := s.now + 1 }
      | Parsed.debug data => processDebug s data
      | Parsed.error err =>
          { s with
            messages := s.messages ++
              [{ id := MsgId.errorStamp s.now, timestamp := s.now,
                 kind := MsgKind.result ("Error: " ++ err) (some false) none
                   none none (some err) }],
            isGenerating := false,
            now := s.now + 1 }
      | Parsed.other _ => s

/-- Folding the frame loop over a list of decoded lines. -/
def processFrames (s : ClientState) (fs : List Frame) : ClientState :=
  fs.foldl processFrame s

/-- The empty client state before any turn. -/
def clientInit : ClientState :=
  { messages := [], isGenerating := false, currentAssistant := none,
    tools := [], now := 0 }

/-- The prelude of `handleSubmit` (lines 59-101): the turn is refused
while one is generating or when the trimmed input is empty; otherwise
the user message is appended, `isGenerating` is set, and the per-call
locals `currentAssistantMessage` and `currentToolExecutions` start out
empty. -/
def startTurn (s : ClientState) (input : String) : ClientState :=
  if s.isGenerating ∨ trimStr input = "" then s
  else
    { messages := s.messages ++
        [{ id := MsgId.userStamp s.now, timestamp := s.now,
           kind := MsgKind.user (trimStr input) }],
      isGenerating := true, currentAssistant := none, tools := [],
      now := s.now + 1 }

/-- The `stop` handler (EnhancedClaudeSession.tsx lines 298-300): its
entire body is `setIsGenerating(false)`. -/
def stop (s : ClientState) : ClientState :=
  { s with isGenerating := false }

/-- One consumer action: starting a turn with some input, or one decoded
frame arriving on the open stream. -/
inductive Act where
  | start (input : String)
  | frame (f : Frame)
deriving DecidableEq, Repr

/-- Applying one action to the client state. -/
def applyAct (s : ClientState) (a : Act) : ClientState :=
  match a with
  | Act.start input => startTurn s input
  | Act.frame f => processFrame s f

/-- States reachable from the empty client state. -/
def runActs (acts : List Act) : ClientState :=
  acts.foldl applyAct clientInit

/-! Server-side model: the chunk loop of the `POST /api/chat` handler in
`server/index.js` (lines 203-340).  Agent SDK chunks are the tagged
shapes the `if`/`else` chain distinguishes; every chunk whose type the
chain has no branch for is `other` and is re-serialized as a `debug`
wire event.  Non-integral numeric payloads (`total_cost_usd`) are
carried opaquely as naturals. -/

/-- One item of an assistant chunk's `message.content` array; the loop
only ever inspects `content[0]` and only when its type is `text`. -/
inductive AsstContent where
  | text (s : String)
  | otherContent
deriving DecidableEq, Repr

/-- One chunk yielded by the Agent SDK `query` iterator, as classified
by the `if`/`else` chain of the handler. -/
inductive Chunk where
  | systemInit (model : Option String) (tools : Option (List String))
  | assistant (content : List AsstContent) (messageId : String)
  | result (isError : Bool) (durationMs : Nat) (usage : Usage) (totalCostUsd : Nat)
  | legacyText (text : String)
  | toolUse (name : String) (input : ToolInput)
  | toolResult (name : String) (result : String)
  | other (ty : String)
deriving DecidableEq, Repr

/-- One serialized SSE record written with `res.write`, by payload
shape; `done` is the literal `data: [DONE]` record. -/
inductive WireEvent where
  | init (sessionId : String) (model : String) (tools : List String)
  | text (text : String) (fullText : String) (messageId : Option String)
  | result (success : Bool) (duration : Nat) (usage : Usage) (cost : Nat)
  | toolUse (tool : String) (input : ToolInput)
  | toolResult (tool : String) (result : String)
  | errorEv (error : String)
  | debugEv (chunkTy : String)
  | done
deriving DecidableEq, Repr

/-- One iteration of the chunk loop (server/index.js lines 264-327):
the accumulated `fullResponse` is threaded through, and each chunk
produces at most one wire event.  An assistant chunk whose `content[0]`
is not a text block writes nothing at all. -/
def serveChunk (sessionId : String) (fullResponse : String) (c : Chunk) :
    String × List WireEvent :=
  match c with
  | Chunk.systemInit model tools =>
      (fullResponse,
        [WireEvent.init sessionId (jsOrD model "claude-sonnet-4-5-20250929")
          (tools.getD [])])
  | Chunk.assistant content messageId =>
      match content with
      | AsstContent.text t :: _ =>
          (fullResponse ++ t,
            [WireEvent.text t (fullResponse ++ t) (some messageId)])
      | _ => (fullResponse, [])
  | Chunk.result isError durationMs usage cost =>
      (fullResponse, [WireEvent.result (!isError) durationMs usage cost])
  | Chunk.legacyText t =>
      (fullResponse ++ t, [WireEvent.text t (fullResponse ++ t) none])
  | Chunk.toolUse name input =>
      (fullResponse, [WireEvent.toolUse name input])
  | Chunk.toolResult name result =>
      (fullResponse, [WireEvent.toolResult name result])
  | Chunk.other ty =>
      (fullResponse, [WireEvent.debugEv ty])

/-- The whole `for await` loop over the SDK chunks. -/
def serveChunks (sessionId : String) (fullResponse : String) :
    List Chunk → String × List WireEvent
  | [] => (fullResponse, [])
  | c :: cs =>
      let step := serveChunk sessionId fullResponse c
      let rest := serveChunks sessionId step.1 cs
      (rest.1, step.2 ++ rest.2)

/-- Outcome of iterating the Agent SDK `query` result: either the
iterator ends normally after yielding some chunks, or it (or any part of
the `try` block) throws after a prefix of chunks has been served. -/
inductive SdkOutcome where
  | ok (chunks : List Chunk)
  | failAfter (chunks : List Chunk) (err : String)
deriving DecidableEq, Repr

/-- The handler's observable HTTP response: a synchronous JSON error
with a status code (written before any streaming), or a 200 SSE stream
of wire events. -/
inductive HttpResponse where
  | jsonError (status : Nat) (body : String)
  | sse (frames : List WireEvent)
deriving DecidableEq, Repr

/-- The `POST /api/chat` handler (server/index.js lines 203-340): a
missing (or, by JS truthiness, empty) `message` is a synchronous 400
before anything is streamed; otherwise the chunks are streamed and the
turn ends with `[DONE]`, and the `catch` around the loop turns any
failure after streaming began into an `error` event followed by
`[DONE]` and `res.end()`, never into a thrown fault or an HTTP status
change. -/
def handleChat (sessionId : String) (message : Option String)
    (outcome : SdkOutcome) : HttpResponse :=
  match message with
  | none => HttpResponse.jsonError 400 "Missing message"
  | some m =>
      if m = "" then HttpResponse.jsonError 400 "Missing message"
      else
        match outcome with
        | SdkOutcome.ok chunks =>
            HttpResponse.sse ((serveChunks sessionId "" chunks).2 ++ [WireEvent.done])
        | SdkOutcome.failAfter chunks err =>
            HttpResponse.sse ((serveChunks sessionId "" chunks).2 ++
              [WireEvent.errorEv err, WireEvent.done])

/-- The `(text, fullText)` pairs of the `text` events of a wire stream,
in emission order. -/
def textPairs : List WireEvent → List (String × String)
  | [] => []
  | WireEvent.text t f _ :: rest => (t, f) :: textPairs rest
  | _ :: rest => textPairs rest

/-- Concatenation, in order, of the `text` fields of a list of
`(text, fullText)` pairs. -/
def concatTexts : List (String × String) → String
  | [] => ""
  | p :: rest => p.1 ++ concatTexts rest

/-! Derived observations and statement helpers. -/

/-- Whether a log entry is a `tool_result` message (of any invocation). -/
def isToolResultMsg (m : Msg) : Bool :=
  match m.kind with
  | MsgKind.toolResult _ _ _ _ _ => true
  | _ => false

/-- Whether a log entry is the `tool_use` message of invocation `k`. -/
def isUseFor (k : String) (m : Msg) : Bool :=
  match m.kind with
  | MsgKind.toolUse _ _ tid => tid = k
  | _ => false

/-- Whether a log entry is a `tool_result` message referencing
invocation `k` (the synthetic TodoWrite message carries no id and
references no invocation). -/
def isResFor (k : String) (m : Msg) : Bool :=
  match m.kind with
  | MsgKind.toolResult _ _ _ tid _ => tid = some k
  | _ => false

/-- Content of the currently open assistant message: the content field
of the log entry whose id is `currentAssistantMessage`'s id, when both
exist. -/
def assistantContent (s : ClientState) : Option (Option String) :=
  match s.currentAssistant with
  | none => none
  | some aid =>
      match s.messages.find? (fun m => m.id == aid) with
      | some m =>
          match m.kind with
          | MsgKind.assistant c _ => some c
          | _ => none
      | none => none

/-- A `text` payload, as a record: its optional delta, accumulated full
text, and streaming message id. -/
structure TextEv where
  text : Option String
  fullText : Option String
  messageId : Option String
deriving DecidableEq, Repr

/-- The frame carrying a `text` payload. -/
def textFrame (e : TextEv) : Frame :=
  Frame.event (Parsed.text e.text e.fullText e.messageId)

/-- A matched `tool_use`/`tool_result` pair for one invocation id, as it
arrives on the wire inside two `debug` envelopes. -/
structure ToolPair where
  id : String
  name : String
  input : ToolInput
  output : String
  isError : Bool
deriving DecidableEq, Repr

/-- The two frames delivering one matched pair: a `debug` envelope of
inner type `assistant` holding the `tool_use` item, then one of inner
type `user` holding the `tool_result` item. -/
def pairFrames (p : ToolPair) : List Frame :=
  [Frame.event (Parsed.debug ⟨"assistant", some [ContentItem.toolUse p.id p.name p.input]⟩),
   Frame.event (Parsed.debug ⟨"user", some [ContentItem.toolResult p.id p.output p.isError]⟩)]

/-- The synthetic TodoWrite message the completion of pair `p` appends
(at clock `t + 1`) when the tool name folds to `todowrite` and the
recorded input has a `todos` field; empty otherwise. -/
def todoMsgs (p : ToolPair) (t : Nat) : List Msg :=
  if lowerStr p.name = "todowrite" then
    match p.input.todos with
    | some ts =>
        [{ id := MsgId.todoStamp (t + 1), timestamp := t + 1,
           kind := MsgKind.toolResult "TodoWrite" (some { todos := some ts })
             "Todo list updated successfully" none none }]
    | none => []
  else []

/-- The log entries one matched pair appends when its `tool_use` frame
arrives at clock `t` (the TodoWrite special case adds its synthetic
message). -/
def pairMsgs (p : ToolPair) (t : Nat) : List Msg :=
  [{ id := MsgId.toolUseFor p.id, timestamp := t,
     kind := MsgKind.toolUse p.name p.input p.id },
   { id := MsgId.toolResultFor p.id, timestamp := t + 1,
     kind := MsgKind.toolResult p.name (some p.input) p.output (some p.id)
       (if p.isError then some p.output else none) }] ++
  todoMsgs p t

/-- The correlation record one matched pair leaves behind: marked
complete, never removed. -/
def completedExec (p : ToolPair) (t : Nat) : ToolExecution :=
  { id := p.id, name := p.name, input := p.input, isComplete := true,
    startTime := t, endTime := some (t + 1), result := some p.output,
    error := if p.isError then some p.output else none }

/-- Closed form of processing one matched pair's two frames. -/
def applyPair (s : ClientState) (p : ToolPair) : ClientState :=
  { messages := s.messages ++ pairMsgs p s.now,
    isGenerating := s.isGenerating,
    currentAssistant := s.currentAssistant,
    tools := mapSet s.tools p.id (completedExec p s.now),
    now := s.now + 2 }

/-- Every correlation-table entry has a `tool_use` message in the log. -/
def UsePresent (s : ClientState) : Prop :=
  ∀ k e, mapGet s.tools k = some e → ∃ m ∈ s.messages, isUseFor k m = true

/-- Every `tool_result` message referencing an invocation id sits after
a `tool_use` message with the same id. -/
def ResAfterUse (msgs : List Msg) : Prop :=
  ∀ (j : Nat) (r : Msg), msgs[j]? = some r → ∀ k, isResFor k r = true →
    ∃ i : Nat, i < j ∧ ∃ u, msgs[i]? = some u ∧ isUseFor k u = true

/-- The combined log/table invariant. -/
def LogInv (s : ClientState) : Prop :=
  UsePresent s ∧ ResAfterUse s.messages

/-- An open assistant message: `currentAssistantMessage` points at the
single log entry with its id, and that entry is an assistant message
with the given content. -/
def OpenAsst (s : ClientState) (pre : List Msg) (aid : MsgId) (ts : Nat)
    (c : Option String) (mid : Option String) : Prop :=
  s.currentAssistant = some aid ∧
  s.messages = pre ++ [{ id := aid, timestamp := ts, kind := MsgKind.assistant c mid }] ∧
  ∀ m ∈ pre, m.id ≠ aid

/-! Lemmas.  The first group shows that frame processing never reads
`isGenerating`: two states agreeing on every other field are processed
to states that again agree on every other field ("agreement"). -/

/-- Agreement of two states on everything except `isGenerating`. -/
def Agrees (s t : ClientState) : Prop :=
  s.messages = t.messages ∧ s.currentAssistant = t.currentAssistant ∧
  s.tools = t.tools ∧ s.now = t.now

theorem processAssistantItems_agree (items : List ContentItem) :
    ∀ s t : ClientState, Agrees s t →
      Agrees (processAssistantItems s items) (processAssistantItems t items) := by
  induction items with
  | nil => exact fun s t h => h
  | cons it rest ih =>
      intro s t h
      obtain ⟨hm, hc, ht, hn⟩ := h
      cases it with
      | toolUse tid name input =>
          exact ih _ _ ⟨by simp [hm, hn], hc, by rw [ht, hn], by rw [hn]⟩
      | toolResult a c e => exact ih s t ⟨hm, hc, ht, hn⟩
      | otherItem => exact ih s t ⟨hm, hc, ht, hn⟩

theorem processUserItems_agree (items : List ContentItem) :
    ∀ s t : ClientState, Agrees s t →
      Agrees (processUserItems s items) (processUserItems t items) := by
  induction items with
  | nil => exact fun s t h => h
  | cons it rest ih =>
      intro s t h
      obtain ⟨hm, hc, ht, hn⟩ := h
      cases it with
      | toolUse tid name input => exact ih s t ⟨hm, hc, ht, hn⟩
      | otherItem => exact ih s t ⟨hm, hc, ht, hn⟩
      | toolResult tid content isErr =>
          simp only [processUserItems]
          by_cases htid : tid = ""
          · simp only [if_pos htid]
            exact ih s t ⟨hm, hc, ht, hn⟩
          · simp only [if_neg htid, ht]
            cases hg : mapGet t.tools tid with
            | none => exact ih s t ⟨hm, hc, ht, hn⟩
            | some exec =>
                simp only
                by_cases hname : lowerStr exec.name = "todowrite"
                · simp only [hname, reduceIte]
                  cases htd : exec.input.todos with
                  | some ts =>
                      simp only [htd]
                      exact ih _ _ ⟨by simp [hm, hn], hc, by rw [hn], by rw [hn]⟩
                  | none =>
                      simp only [htd]
                      exact ih _ _ ⟨by simp [hm, hn], hc, by rw [hn], by rw [hn]⟩
                · simp only [if_neg hname]
                  exact ih _ _ ⟨by simp [hm, hn], hc, by rw [hn], by rw [hn]⟩

theorem processText_agree (a ft mid : Option String) (s t : ClientState)
    (h : Agrees s t) : Agrees (processText s a ft mid) (processText t a ft mid) := by
  obtain ⟨hm, hc, ht, hn⟩ := h
  cases hca : s.currentAssistant with
  | none =>
      have hct : t.currentAssistant = none := by rw [← hc, hca]
      refine ⟨?_, ?_, ?_, ?_⟩ <;> simp [processText, hca, hct, hm, ht, hn]
  | some aid =>
      have hct : t.currentAssistant = some aid := by rw [← hc, hca]
      refine ⟨?_, ?_, ?_, ?_⟩ <;> simp [processText, hca, hct, hm, ht, hn]

theorem processDebug_agree (data : DebugData) (s t : ClientState)
    (h : Agrees s t) : Agrees (processDebug s data) (processDebug t data) := by
  have step1 : ∀ u v : ClientState, Agrees u v →
      Agrees
        (match data.content with
         | some items => processAssistantItems u items
         | none => u)
        (match data.content with
         | some items => processAssistantItems v items
         | none => v) := by
    intro u v huv
    cases data.content with
    | some items => exact processAssistantItems_agree items u v huv
    | none => exact huv
  have step2 : ∀ u v : ClientState, Agrees u v →
      Agrees
        (match data.content with
         | some items => processUserItems u items
         | none => u)
        (match data.content with
         | some items => processUserItems v items
         | none => v) := by
    intro u v huv
    cases data.content with
    | some items => exact processUserItems_agree items u v huv
    | none => exact huv
  simp only [processDebug]
  by_cases ha : data.dtype = "assistant" <;> by_cases hu : data.dtype = "user"
  · exact absurd (ha.symm.trans hu) (by decide)
  · rw [if_neg hu, if_neg hu, if_pos ha, if_pos ha]
    obtain ⟨hm1, hc1, ht1, hn1⟩ := step1 s t h
    exact ⟨hm1, hc1, ht1, by rw [hn1]⟩
  · rw [if_pos hu, if_pos hu, if_neg ha, if_neg ha]
    obtain ⟨hm1, hc1, ht1, hn1⟩ := step2 s t h
    exact ⟨hm1, hc1, ht1, by rw [hn1]⟩
  · rw [if_neg hu, if_neg hu, if_neg ha, if_neg ha]
    exact ⟨h.1, h.2.1, h.2.2.1, by rw [h.2.2.2]⟩

theorem processFrame_agree (f : Frame) (s t : ClientState) (h : Agrees s t) :
    Agrees (processFrame s f) (processFrame t f) := by
  obtain ⟨hm, hc, ht, hn⟩ := h
  cases f with
  | notData => exact ⟨hm, hc, ht, hn⟩
  | done => exact ⟨hm, hc, ht, hn⟩
  | malformed => exact ⟨hm, hc, ht, hn⟩
  | event p =>
      cases p with
      | init sid model tools =>
          exact ⟨by simp [processFrame, hm, hn], hc, ht, by simp [processFrame, hn]⟩
      | text a ft mid => exact processText_agree a ft mid s t ⟨hm, hc, ht, hn⟩
      | result su d c u =>
          exact ⟨by simp [processFrame, hm, hn], hc, ht, by simp [processFrame, hn]⟩
      | debug data => exact processDebug_agree data s t ⟨hm, hc, ht, hn⟩
      | error e =>
          exact ⟨by simp [processFrame, hm, hn], hc, ht, by simp [processFrame, hn]⟩
      | other ty => exact ⟨hm, hc, ht, hn⟩

theorem concatTexts_append (a b : List (String × String)) :
    concatTexts (a ++ b) = concatTexts a ++ concatTexts b := by
  induction a with
  | nil => simp [concatTexts, String.empty_append]
  | cons p rest ih => simp [concatTexts, ih, String.append_assoc]

theorem concatTexts_take_le (P : List (String × String)) (m n : Nat) (h : m ≤ n) :
    (concatTexts (P.take m)).length ≤ (concatTexts (P.take n)).length := by
  have hn : n = m + (n - m) := by omega
  rw [hn, List.take_add, concatTexts_append, String.length_append]
  exact Nat.le_add_right _ _

theorem serveChunks_fullText (sid : String) (cs : List Chunk) :
    ∀ (acc : String) (i : Nat) (pi : String × String),
      (textPairs (serveChunks sid acc cs).2)[i]? = some pi →
      pi.2 = acc ++ concatTexts ((textPairs (serveChunks sid acc cs).2).take (i + 1)) := by
  induction cs with
  | nil => intro acc i pi h; simp [serveChunks, textPairs] at h
  | cons c cs ih =>
      intro acc i pi h
      cases c with
      | systemInit model tools =>
          simp only [serveChunks, serveChunk, List.singleton_append, List.nil_append, textPairs] at h ⊢
          exact ih acc i pi h
      | result isError durationMs usage cost =>
          simp only [serveChunks, serveChunk, List.singleton_append, List.nil_append, textPairs] at h ⊢
          exact ih acc i pi h
      | toolUse name input =>
          simp only [serveChunks, serveChunk, List.singleton_append, List.nil_append, textPairs] at h ⊢
          exact ih acc i pi h
      | toolResult name result =>
          simp only [serveChunks, serveChunk, List.singleton_append, List.nil_append, textPairs] at h ⊢
          exact ih acc i pi h
      | other ty =>
          simp only [serveChunks, serveChunk, List.singleton_append, List.nil_append, textPairs] at h ⊢
          exact ih acc i pi h
      | legacyText t =>
          simp only [serveChunks, serveChunk, List.singleton_append, List.nil_append, textPairs] at h ⊢
          cases i with
          | zero =>
              simp only [List.getElem?_cons_zero, Option.some.injEq] at h
              subst h
              simp [concatTexts, String.append_empty]
          | succ i =>
              simp only [List.getElem?_cons_succ] at h
              simp only [List.take_succ_cons, concatTexts]
              rw [ih (acc ++ t) i pi h, String.append_assoc]
              rfl
      | assistant content messageId =>
          cases content with
          | nil =>
              simp only [serveChunks, serveChunk, List.nil_append, List.append_nil, textPairs] at h ⊢
              exact ih acc i pi h
          | cons a rest =>
              cases a with
              | otherContent =>
                  simp only [serveChunks, serveChunk, List.nil_append, List.append_nil, textPairs] at h ⊢
                  exact ih acc i pi h
              | text t =>
                  simp only [serveChunks, serveChunk, List.singleton_append, List.nil_append, textPairs] at h ⊢
                  cases i with
                  | zero =>
                      simp only [List.getElem?_cons_zero, Option.some.injEq] at h
                      subst h
                      simp [concatTexts, String.append_empty]
                  | succ i =>
                      simp only [List.getElem?_cons_succ] at h
                      simp only [List.take_succ_cons, concatTexts]
                      rw [ih (acc ++ t) i pi h, String.append_assoc]
                      rfl

theorem map_id_of_ne (msgs : List Msg) (aid : MsgId) (c : Option String)
    (h : ∀ m ∈ msgs, m.id ≠ aid) :
    (msgs.map fun m => if m.id = aid then setContent m c else m) = msgs := by
  induction msgs with
  | nil => rfl
  | cons m rest ih =>
      simp only [List.map_cons, if_neg (h m (List.mem_cons_self m rest)), List.cons.injEq]
      exact ⟨trivial, ih fun x hx => h x (List.mem_cons_of_mem m hx)⟩

theorem processText_create (s : ClientState) (t f mid : Option String)
    (h0 : s.currentAssistant = none)
    (h1 : ∀ m ∈ s.messages, m.id ≠ MsgId.assistantStamp s.now) :
    processText s t f mid =
      { messages := s.messages ++
          [{ id := MsgId.assistantStamp s.now, timestamp := s.now,
             kind := MsgKind.assistant (jsOr f t) mid }],
        isGenerating := s.isGenerating,
        currentAssistant := some (MsgId.assistantStamp s.now),
        tools := s.tools, now := s.now + 1 } := by
  simp only [processText, h0]
  rw [List.map_append, map_id_of_ne s.messages _ _ h1]
  simp [setContent]

theorem processText_update (s : ClientState) (t f mid : Option String)
    (pre : List Msg) (aid : MsgId) (ts : Nat) (c mid0 : Option String)
    (h : OpenAsst s pre aid ts c mid0) :
    OpenAsst (processText s t f mid) pre aid ts (jsOr f t) mid0 := by
  obtain ⟨hca, hmsgs, hpre⟩ := h
  refine ⟨?_, ?_, hpre⟩
  · simp [processText, hca]
  · simp only [processText, hca, hmsgs]
    rw [List.map_append, map_id_of_ne pre _ _ hpre]
    simp [setContent]

theorem processText_run (evs : List TextEv) :
    ∀ (s : ClientState) (pre : List Msg) (aid : MsgId) (ts : Nat)
      (c mid0 : Option String), OpenAsst s pre aid ts c mid0 →
      OpenAsst (processFrames s (evs.map textFrame)) pre aid ts
        (evs.foldl (fun _acc e => jsOr e.fullText e.text) c) mid0 := by
  induction evs with
  | nil => exact fun s pre aid ts c mid0 h => h
  | cons e rest ih =>
      intro s pre aid ts c mid0 h
      exact ih _ pre aid ts _ mid0
        (processText_update s e.text e.fullText e.messageId pre aid ts c mid0 h)

theorem find?_append_singleton (pre : List Msg) (aid : MsgId) (A : Msg)
    (hA : A.id = aid) (hpre : ∀ m ∈ pre, m.id ≠ aid) :
    (pre ++ [A]).find? (fun m => m.id == aid) = some A := by
  induction pre with
  | nil => simp [List.find?, hA]
  | cons m rest ih =>
      have hm : (m.id == aid) = false := by
        rw [beq_eq_false_iff_ne]
        exact hpre m (List.mem_cons_self m rest)
      simp only [List.cons_append, List.find?]
      rw [hm]
      exact ih fun x hx => hpre x (List.mem_cons_of_mem m hx)

theorem assistantContent_of_openAsst (s : ClientState) (pre : List Msg)
    (aid : MsgId) (ts : Nat) (c mid0 : Option String)
    (h : OpenAsst s pre aid ts c mid0) : assistantContent s = some c := by
  obtain ⟨hca, hmsgs, hpre⟩ := h
  simp only [assistantContent, hca, hmsgs]
  rw [find?_append_singleton pre aid _ rfl hpre]

theorem mapGet_mapSet (m : List (String × ToolExecution)) (a : String)
    (v : ToolExecution) (b : String) :
    mapGet (mapSet m a v) b = if b = a then some v else mapGet m b := by
  induction m with
  | nil =>
      by_cases h : b = a
      · subst h; simp [mapSet, mapGet]
      · simp [mapSet, mapGet, h]
        exact fun hh => h hh.symm
  | cons kv rest ih =>
      obtain ⟨k, w⟩ := kv
      by_cases hk : k = a
      · subst hk
        by_cases h : b = k
        · subst h; simp [mapSet, mapGet]
        · have hkb : ¬ k = b := fun hh => h hh.symm
          simp [mapSet, mapGet, h, hkb]
      · by_cases h : b = k
        · subst h
          simp [mapSet, mapGet, hk]
        · have hkb : ¬ k = b := fun hh => h hh.symm
          simp [mapSet, mapGet, hk, h, hkb, ih]

theorem mapSet_mapSet (m : List (String × ToolExecution)) (a : String)
    (v w : ToolExecution) :
    mapSet (mapSet m a v) a w = mapSet m a w := by
  induction m with
  | nil => simp [mapSet]
  | cons kv rest ih =>
      obtain ⟨k, u⟩ := kv
      by_cases hk : k = a
      · subst hk; simp [mapSet]
      · simp [mapSet, hk, ih]

theorem processFrames_append (s : ClientState) (l1 l2 : List Frame) :
    processFrames s (l1 ++ l2) = processFrames (processFrames s l1) l2 := by
  simp [processFrames, List.foldl_append]

theorem processPair (s : ClientState) (p : ToolPair) (hne : p.id ≠ "") :
    processFrames s (pairFrames p) = applyPair s p := by
  by_cases hname : lowerStr p.name = "todowrite"
  · cases htd : p.input.todos with
    | some ts =>
        simp [processFrames, pairFrames, processFrame, processDebug,
          processAssistantItems, processUserItems, hne, hname, htd,
          applyPair, pairMsgs, todoMsgs, completedExec, mapGet_mapSet, mapSet_mapSet]
    | none =>
        simp [processFrames, pairFrames, processFrame, processDebug,
          processAssistantItems, processUserItems, hne, hname, htd,
          applyPair, pairMsgs, todoMsgs, completedExec, mapGet_mapSet, mapSet_mapSet]
  · simp [processFrames, pairFrames, processFrame, processDebug,
      processAssistantItems, processUserItems, hne, hname,
      applyPair, pairMsgs, todoMsgs, completedExec, mapGet_mapSet, mapSet_mapSet]

theorem todoMsgs_not_use (p : ToolPair) (t : Nat) (k : String) :
    ∀ m ∈ todoMsgs p t, isUseFor k m = false := by
  intro m hm
  rw [todoMsgs] at hm
  by_cases hname : lowerStr p.name = "todowrite"
  · rw [if_pos hname] at hm
    cases htd : p.input.todos with
    | some ts =>
        rw [htd] at hm
        simp only [List.mem_singleton] at hm
        subst hm; rfl
    | none => rw [htd] at hm; simp at hm
  · rw [if_neg hname] at hm; simp at hm

theorem todoMsgs_not_res (p : ToolPair) (t : Nat) (k : String) :
    ∀ m ∈ todoMsgs p t, isResFor k m = false := by
  intro m hm
  rw [todoMsgs] at hm
  by_cases hname : lowerStr p.name = "todowrite"
  · rw [if_pos hname] at hm
    cases htd : p.input.todos with
    | some ts =>
        rw [htd] at hm
        simp only [List.mem_singleton] at hm
        subst hm; simp [isResFor]
    | none => rw [htd] at hm; simp at hm
  · rw [if_neg hname] at hm; simp at hm

theorem countP_pairMsgs_use (p : ToolPair) (t : Nat) (k : String) :
    (pairMsgs p t).countP (isUseFor k) = if p.id = k then 1 else 0 := by
  have h0 : (todoMsgs p t).countP (isUseFor k) = 0 :=
    List.countP_eq_zero.mpr fun m hm => by simp [todoMsgs_not_use p t k m hm]
  rw [pairMsgs, List.countP_append, h0]
  by_cases hk : p.id = k <;>
    simp [List.countP_cons, isUseFor, hk]

theorem countP_pairMsgs_res (p : ToolPair) (t : Nat) (k : String) :
    (pairMsgs p t).countP (isResFor k) = if p.id = k then 1 else 0 := by
  have h0 : (todoMsgs p t).countP (isResFor k) = 0 :=
    List.countP_eq_zero.mpr fun m hm => by simp [todoMsgs_not_res p t k m hm]
  rw [pairMsgs, List.countP_append, h0]
  by_cases hk : p.id = k <;>
    simp [List.countP_cons, isResFor, hk]

theorem pairsRun_tools (ps : List ToolPair) :
    ∀ (s : ClientState) (k : String), (∀ p ∈ ps, p.id ≠ "") → (∀ p ∈ ps, p.id ≠ k) →
      mapGet (processFrames s (ps.flatMap pairFrames)).tools k = mapGet s.tools k := by
  induction ps with
  | nil => intro s k _ _; rfl
  | cons p ps ih =>
      intro s k hne hk
      rw [List.flatMap_cons, processFrames_append,
        processPair s p (hne p (List.mem_cons_self p ps))]
      rw [ih (applyPair s p) k (fun q hq => hne q (List.mem_cons_of_mem p hq))
        (fun q hq => hk q (List.mem_cons_of_mem p hq))]
      have hpk : ¬ k = p.id := fun hh => hk p (List.mem_cons_self p ps) hh.symm
      simp [applyPair, mapGet_mapSet, hpk]

theorem pairsRun_msgs (ps : List ToolPair) :
    ∀ s : ClientState, (∀ p ∈ ps, p.id ≠ "") →
      ∃ tail : List Msg,
        (processFrames s (ps.flatMap pairFrames)).messages = s.messages ++ tail ∧
        ∀ k, (∀ p ∈ ps, p.id ≠ k) →
          tail.countP (isUseFor k) = 0 ∧ tail.countP (isResFor k) = 0 := by
  induction ps with
  | nil =>
      intro s _
      exact ⟨[], by simp [processFrames], fun k _ => ⟨rfl, rfl⟩⟩
  | cons p ps ih =>
      intro s hne
      rw [List.flatMap_cons, processFrames_append,
        processPair s p (hne p (List.mem_cons_self p ps))]
      obtain ⟨tail, htail, hcount⟩ :=
        ih (applyPair s p) (fun q hq => hne q (List.mem_cons_of_mem p hq))
      refine ⟨pairMsgs p s.now ++ tail, ?_, ?_⟩
      · rw [htail]; simp [applyPair]
      · intro k hk
        have hpk : p.id ≠ k := hk p (List.mem_cons_self p ps)
        obtain ⟨h1, h2⟩ := hcount k (fun q hq => hk q (List.mem_cons_of_mem p hq))
        constructor <;>
          simp [List.countP_append, h1, h2, countP_pairMsgs_use,
            countP_pairMsgs_res, hpk]

theorem exists_getElem?_of_mem (l : List Msg) (a : Msg) (h : a ∈ l) :
    ∃ i : Nat, l[i]? = some a := by
  obtain ⟨i, hi⟩ := List.get_of_mem h
  exact ⟨i, by simp [← hi]⟩

theorem resAfterUse_append (msgs l : List Msg) (h : ResAfterUse msgs)
    (hl : ∀ m ∈ l, ∀ k, isResFor k m = true →
      ∃ (i : Nat) (u : Msg), msgs[i]? = some u ∧ isUseFor k u = true) :
    ResAfterUse (msgs ++ l) := by
  intro j r hj k hk
  by_cases hjlen : j < msgs.length
  · rw [List.getElem?_append_left hjlen] at hj
    obtain ⟨i, hij, u, hu, hku⟩ := h j r hj k hk
    have hilen : i < msgs.length := Nat.lt_trans hij hjlen
    exact ⟨i, hij, u, by rw [List.getElem?_append_left hilen]; exact hu, hku⟩
  · push_neg at hjlen
    have hr : r ∈ l := by
      rw [List.getElem?_append_right hjlen] at hj
      exact List.getElem?_mem hj
    obtain ⟨i, u, hu, hku⟩ := hl r hr k hk
    have hilen : i < msgs.length := by
      rw [List.getElem?_eq_some] at hu
      exact hu.1
    exact ⟨i, Nat.lt_of_lt_of_le hilen hjlen, u,
      by rw [List.getElem?_append_left hilen]; exact hu, hku⟩

theorem resAfterUse_append_nonres (msgs l : List Msg) (h : ResAfterUse msgs)
    (hl : ∀ m ∈ l, ∀ k, isResFor k m = false) : ResAfterUse (msgs ++ l) :=
  resAfterUse_append msgs l h fun m hm k hk =>
    absurd hk (by simp [hl m hm k])

theorem setContent_class (m : Msg) (c : Option String) (k : String) :
    isResFor k (setContent m c) = isResFor k m ∧
    isUseFor k (setContent m c) = isUseFor k m := by
  cases hk : m.kind <;> simp [setContent, isResFor, isUseFor, hk]

theorem updateFun_class (aid : MsgId) (c : Option String) (m : Msg) (k : String) :
    isResFor k (if m.id = aid then setContent m c else m) = isResFor k m ∧
    isUseFor k (if m.id = aid then setContent m c else m) = isUseFor k m := by
  by_cases hid : m.id = aid
  · simp [hid, setContent_class]
  · simp [hid]

theorem resAfterUse_map (msgs : List Msg) (g : Msg → Msg) (h : ResAfterUse msgs)
    (hg : ∀ m k, isResFor k (g m) = isResFor k m ∧ isUseFor k (g m) = isUseFor k m) :
    ResAfterUse (msgs.map g) := by
  intro j r hj k hk
  rw [List.getElem?_map] at hj
  cases hm : msgs[j]? with
  | none => rw [hm] at hj; simp at hj
  | some m =>
      rw [hm] at hj
      simp only [Option.map_some', Option.some.injEq] at hj
      obtain ⟨i, hij, u, hu, hku⟩ := h j m hm k (by
        rw [← (hg m k).1, hj]; exact hk)
      refine ⟨i, hij, g u, ?_, ?_⟩
      · rw [List.getElem?_map, hu]; rfl
      · rw [(hg u k).2]; exact hku

theorem logInv_processAssistantItems (items : List ContentItem) :
    ∀ s : ClientState, LogInv s → LogInv (processAssistantItems s items) := by
  induction items with
  | nil => exact fun s h => h
  | cons it rest ih =>
      intro s h
      cases it with
      | toolResult a c e => exact ih s h
      | otherItem => exact ih s h
      | toolUse tid name input =>
          apply ih
          obtain ⟨hup, hres⟩ := h
          constructor
          · intro k e hk
            have hk' : mapGet (mapSet s.tools tid
                { id := tid, name := name, input := input, isComplete := false,
                  startTime := s.now, endTime := none, result := none,
                  error := none }) k = some e := hk
            rw [mapGet_mapSet] at hk'
            by_cases hkt : k = tid
            · subst hkt
              refine ⟨{ id := MsgId.toolUseFor k,
                        timestamp := s.now,
                        kind := MsgKind.toolUse name input k },
                ?_, by simp [isUseFor]⟩
              exact List.mem_append_right _ (List.mem_singleton_self _)
            · rw [if_neg hkt] at hk'
              obtain ⟨m, hm, hkm⟩ := hup k e hk'
              exact ⟨m, List.mem_append_left _ hm, hkm⟩
          · exact resAfterUse_append_nonres _ _ hres (by
              intro m hm k
              simp only [List.mem_singleton] at hm
              subst hm
              rfl)

theorem logInv_processUserItems (items : List ContentItem) :
    ∀ s : ClientState, LogInv s → LogInv (processUserItems s items) := by
  induction items with
  | nil => exact fun s h => h
  | cons it rest ih =>
      intro s h
      cases it with
      | toolUse tid name input => exact ih s h
      | otherItem => exact ih s h
      | toolResult tid content isErr =>
          simp only [processUserItems]
          by_cases htid : tid = ""
          · simp only [if_pos htid]
            exact ih s h
          · simp only [if_neg htid]
            cases hg : mapGet s.tools tid with
            | none => exact ih s h
            | some exec =>
                simp only
                obtain ⟨hup, hres⟩ := h
                have h1 : LogInv
                    { s with
                      tools := mapSet s.tools tid
                        { exec with
                            result := some content, isComplete := true,
                            endTime := some s.now,
                            error := if isErr then some content else none },
                      messages := s.messages ++
                        [{ id := MsgId.toolResultFor tid, timestamp := s.now,
                           kind := MsgKind.toolResult exec.name (some exec.input)
                             content (some tid)
                             (if isErr then some content else none) }] } := by
                  constructor
                  · intro k e hk
                    have hk' : mapGet (mapSet s.tools tid
                        { exec with
                            result := some content, isComplete := true,
                            endTime := some s.now,
                            error := if isErr then some content else none }) k =
                        some e := hk
                    rw [mapGet_mapSet] at hk'
                    by_cases hkt : k = tid
                    · subst hkt
                      obtain ⟨m, hm, hkm⟩ := hup k exec hg
                      exact ⟨m, List.mem_append_left _ hm, hkm⟩
                    · rw [if_neg hkt] at hk'
                      obtain ⟨m, hm, hkm⟩ := hup k e hk'
                      exact ⟨m, List.mem_append_left _ hm, hkm⟩
                  · apply resAfterUse_append s.messages _ hres
                    intro m hm k hk
                    simp only [List.mem_singleton] at hm
                    subst hm
                    have htk : tid = k := by simpa [isResFor] using hk
                    subst htk
                    obtain ⟨m, hm, hkm⟩ := hup tid exec hg
                    obtain ⟨i, hi⟩ := exists_getElem?_of_mem _ _ hm
                    exact ⟨i, m, hi, hkm⟩
                by_cases hname : lowerStr exec.name = "todowrite"
                · simp only [hname, reduceIte]
                  cases htd : exec.input.todos with
                  | some ts =>
                      simp only [htd]
                      apply ih
                      obtain ⟨hup1, hres1⟩ := h1
                      constructor
                      · intro k e hk
                        obtain ⟨m, hm, hkm⟩ := hup1 k e hk
                        exact ⟨m, List.mem_append_left _ hm, hkm⟩
                      · exact resAfterUse_append_nonres _ _ hres1 (by
                          intro m hm k
                          simp only [List.mem_singleton] at hm
                          subst hm
                          simp [isResFor])
                  | none =>
                      simp only [htd]
                      exact ih _ h1
                · simp only [if_neg hname]
                  exact ih _ h1

theorem logInv_processText (s : ClientState) (t f mid : Option String)
    (h : LogInv s) : LogInv (processText s t f mid) := by
  obtain ⟨hup, hres⟩ := h
  simp only [processText]
  cases hca : s.currentAssistant with
  | some aid =>
      simp only [hca]
      constructor
      · intro k e hk
        obtain ⟨m, hm, hkm⟩ := hup k e hk
        refine ⟨_, List.mem_map_of_mem _ hm, ?_⟩
        rw [(updateFun_class aid (jsOr f t) m k).2]
        exact hkm
      · exact resAfterUse_map _ _ hres fun m k => updateFun_class aid (jsOr f t) m k
  | none =>
      simp only [hca]
      constructor
      · intro k e hk
        obtain ⟨m, hm, hkm⟩ := hup k e hk
        refine ⟨_, List.mem_map_of_mem _ (List.mem_append_left _ hm), ?_⟩
        rw [(updateFun_class (MsgId.assistantStamp s.now) (jsOr f t) m k).2]
        exact hkm
      · refine resAfterUse_map _ _ ?_
          fun m k => updateFun_class (MsgId.assistantStamp s.now) (jsOr f t) m k
        apply resAfterUse_append_nonres _ _ hres
        intro m hm k
        simp only [List.mem_singleton] at hm
        subst hm
        rfl

theorem logInv_processDebug (s : ClientState) (data : DebugData)
    (h : LogInv s) : LogInv (processDebug s data) := by
  simp only [processDebug]
  have h1 : LogInv
      (if data.dtype = "assistant" then
        match data.content with
        | some items => processAssistantItems s items
        | none => s
       else s) := by
    by_cases ha : data.dtype = "assistant"
    · rw [if_pos ha]
      cases data.content with
      | some items => exact logInv_processAssistantItems items s h
      | none => exact h
    · rw [if_neg ha]; exact h
  have h2 : LogInv
      (if data.dtype = "user" then
        match data.content with
        | some items =>
            processUserItems
              (if data.dtype = "assistant" then
                match data.content with
                | some items => processAssistantItems s items
                | none => s
               else s) items
        | none =>
            if data.dtype = "assistant" then
              match data.content with
              | some items => processAssistantItems s items
              | none => s
            else s
       else
        if data.dtype = "assistant" then
          match data.content with
          | some items => processAssistantItems s items
          | none => s
        else s) := by
    by_cases hu : data.dtype = "user"
    · rw [if_pos hu]
      cases hc : data.content with
      | some items =>
          rw [hc] at h1
          exact logInv_processUserItems items _ h1
      | none =>
          rw [hc] at h1
          exact h1
    · rw [if_neg hu]; exact h1
  exact ⟨h2.1, h2.2⟩

theorem logInv_processFrame (f : Frame) (s : ClientState) (h : LogInv s) :
    LogInv (processFrame s f) := by
  cases f with
  | notData => exact h
  | done => exact ⟨h.1, h.2⟩
  | malformed => exact h
  | event p =>
      cases p with
      | text a ft mid => exact logInv_processText s a ft mid h
      | debug data => exact logInv_processDebug s data h
      | other ty => exact h
      | init sid model tools =>
          refine ⟨?_, ?_⟩
          · intro k e hk
            obtain ⟨m, hm, hkm⟩ := h.1 k e hk
            exact ⟨m, List.mem_append_left _ hm, hkm⟩
          · exact resAfterUse_append_nonres _ _ h.2 (by
              intro m hm k
              simp only [List.mem_singleton] at hm
              subst hm
              rfl)
      | result su d c u =>
          refine ⟨?_, ?_⟩
          · intro k e hk
            obtain ⟨m, hm, hkm⟩ := h.1 k e hk
            exact ⟨m, List.mem_append_left _ hm, hkm⟩
          · exact resAfterUse_append_nonres _ _ h.2 (by
              intro m hm k
              simp only [List.mem_singleton] at hm
              subst hm
              rfl)
      | error e =>
          refine ⟨?_, ?_⟩
          · intro k e hk
            obtain ⟨m, hm, hkm⟩ := h.1 k e hk
            exact ⟨m, List.mem_append_left _ hm, hkm⟩
          · exact resAfterUse_append_nonres _ _ h.2 (by
              intro m hm k
              simp only [List.mem_singleton] at hm
              subst hm
              rfl)

theorem logInv_startTurn (s : ClientState) (input : String) (h : LogInv s) :
    LogInv (startTurn s input) := by
  rw [startTurn]
  by_cases hg : s.isGenerating = true ∨ trimStr input = ""
  · rw [if_pos hg]; exact h
  · rw [if_neg hg]
    refine ⟨?_, ?_⟩
    · intro k e hk
      simp [mapGet] at hk
    · exact resAfterUse_append_nonres _ _ h.2 (by
        intro m hm k
        simp only [List.mem_singleton] at hm
        subst hm
        rfl)

theorem logInv_clientInit : LogInv clientInit := by
  constructor
  · intro k e hk
    simp [clientInit, mapGet] at hk
  · intro j r hj
    simp [clientInit] at hj

theorem logInv_runActs (acts : List Act) : LogInv (runActs acts) := by
  have gen : ∀ (l : List Act) (s : ClientState), LogInv s →
      LogInv (l.foldl applyAct s) := by
    intro l
    induction l with
    | nil => exact fun s h => h
    | cons a rest ih =>
        intro s h
        refine ih _ ?_
        cases a with
        | start input => exact logInv_startTurn s input h
        | frame f => exact logInv_processFrame f s h
  exact gen acts clientInit logInv_clientInit

/-! Claim theorems. -/

/-- C5: processing the terminal sentinel `[DONE]` is idempotent: from
any session state, applying `[DONE]` a second time returns exactly the
state the first application produced, that state is `idle`
(`isGenerating = false`), and no additional message is appended; the
model being a total function, no fault is raised. -/
theorem done_sentinel_idempotent (s : ClientState) :
    processFrame (processFrame s Frame.done) Frame.done = processFrame s Frame.done ∧
    (processFrame s Frame.done).isGenerating = false ∧
    (processFrame (processFrame s Frame.done) Frame.done).messages =
      (processFrame s Frame.done).messages :=
  ⟨rfl, rfl, rfl⟩

/-- C6: a malformed frame (a `data:` payload on which `JSON.parse`
throws) leaves the state untouched — it appends no message and raises no
fault — and processing a stream with a malformed frame between any two
groups of frames equals processing the stream without it, so the
surrounding valid frames are processed normally and the stream does not
stop. -/
theorem malformed_frame_ignored (s : ClientState) (pre post : List Frame) :
    processFrame s Frame.malformed = s ∧
    processFrames s (pre ++ Frame.malformed :: post) = processFrames s (pre ++ post) := by
  refine ⟨rfl, ?_⟩
  rw [processFrames, processFrames, List.foldl_append, List.foldl_append]
  rfl

/-- C8 (amended): the server re-serializes a chunk whose type its
`if`/`else` chain does not recognize as a `debug` wire event rather than
dropping it, but the Client Reconciler does not apply the same rule: its
`switch` has no `default` case, so an event whose type is unrecognized
leaves the client state — in particular the message log — completely
unchanged; no `debug` message is appended. -/
theorem unrecognized_kind_server_debug_client_drop (sid fr ty : String)
    (s : ClientState) :
    serveChunk sid fr (Chunk.other ty) = (fr, [WireEvent.debugEv ty]) ∧
    processFrame s (Frame.event (Parsed.other ty)) = s :=
  ⟨rfl, rfl⟩

/-- C8 counterexample: a decoded event of unrecognized kind (`"custom"`)
arriving right after a turn starts appends no message at all — the log
still holds only the user message — contradicting the claim that a
`debug` message is appended to the client's log. -/
theorem unrecognized_kind_no_debug_message :
    processFrame (startTurn clientInit "hi") (Frame.event (Parsed.other "custom")) =
      startTurn clientInit "hi" :=
  rfl

/-- C9 (amended): invoking `stop` drives the session state back to
`idle` without requiring a terminal sentinel, but it does not close the
underlying stream read: `stop`'s entire body is `setIsGenerating(false)`,
and a frame processed after `stop` produces exactly the same message log
as it would have without the `stop`. -/
theorem stop_sets_idle_stream_continues (s : ClientState) (f : Frame) :
    (stop s).isGenerating = false ∧
    (processFrame (stop s) f).messages = (processFrame s f).messages :=
  ⟨rfl, (processFrame_agree f (stop s) s ⟨rfl, rfl, rfl, rfl⟩).1⟩

/-- C9 counterexample: after `stop`, the session is `idle`, yet the next
frame from the still-open stream is processed and appends a message —
so aborting does not close the underlying stream read. -/
theorem stop_does_not_close_stream :
    (stop (startTurn clientInit "hi")).isGenerating = false ∧
    (processFrame (stop (startTurn clientInit "hi"))
        (Frame.event (Parsed.init (some "s1") (some "m") (some [])))).messages.length =
      (stop (startTurn clientInit "hi")).messages.length + 1 :=
  ⟨rfl, by decide⟩

/-- C2 (amended): a `tool_result` event whose invocation id has no
pending record in the correlation table raises no fault (processing is
total), but it also appends no message and leaves the correlation table
unchanged: the `if (toolExecution)` guard has no else branch, so the
event is dropped. -/
theorem orphan_tool_result_ignored (s : ClientState) (tid output : String)
    (isErr : Bool) (hpend : mapGet s.tools tid = none) :
    (processFrame s (Frame.event (Parsed.debug
        ⟨"user", some [ContentItem.toolResult tid output isErr]⟩))).messages =
      s.messages ∧
    (processFrame s (Frame.event (Parsed.debug
        ⟨"user", some [ContentItem.toolResult tid output isErr]⟩))).tools = s.tools := by
  by_cases htid : tid = "" <;>
    constructor <;>
      simp [processFrame, processDebug, processUserItems, htid, hpend]

/-- C2 witness: the amended theorem applied to the concrete Scenario C —
a `tool_result` for unknown id `t9` right after a turn starts. -/
theorem orphan_tool_result_ignored_witness :
    mapGet (startTurn clientInit "hi").tools "t9" = none ∧
    ((processFrame (startTurn clientInit "hi") (Frame.event (Parsed.debug
        ⟨"user", some [ContentItem.toolResult "t9" "out" false]⟩))).messages =
      (startTurn clientInit "hi").messages ∧
    (processFrame (startTurn clientInit "hi") (Frame.event (Parsed.debug
        ⟨"user", some [ContentItem.toolResult "t9" "out" false]⟩))).tools =
      (startTurn clientInit "hi").tools) :=
  ⟨by decide, orphan_tool_result_ignored (startTurn clientInit "hi") "t9" "out" false
    (by decide)⟩

/-- C2 counterexample: in Scenario C the claim asserts a `tool_result`
message is still appended with the tool name reported as unknown; in the
code nothing is appended — after the orphan event the log contains no
`tool_result` message at all. -/
theorem orphan_tool_result_appends_nothing :
    ((processFrame (startTurn clientInit "hi") (Frame.event (Parsed.debug
        ⟨"user", some [ContentItem.toolResult "t9" "out" false]⟩))).messages.countP
      isToolResultMsg) = 0 := by
  decide

/-- C7: once the SSE stream has started, a failure thrown by the SDK
iteration (or anywhere inside the `try` block) is caught and written to
the stream as an `error` event followed by the `[DONE]` sentinel and
`res.end()` — the handler returns an SSE response, never a raised fault
or a changed HTTP status; only the pre-stream validation failure
(missing `message`, or an empty one, which JS truthiness also rejects)
is surfaced synchronously as a 400 JSON error with no events produced. -/
theorem stream_failures_absorbed (sid m : String) (hm : m ≠ "")
    (chunks : List Chunk) (err : String) (outcome : SdkOutcome) :
    handleChat sid (some m) (SdkOutcome.failAfter chunks err) =
      HttpResponse.sse ((serveChunks sid "" chunks).2 ++
        [WireEvent.errorEv err, WireEvent.done]) ∧
    handleChat sid (some m) (SdkOutcome.ok chunks) =
      HttpResponse.sse ((serveChunks sid "" chunks).2 ++ [WireEvent.done]) ∧
    handleChat sid none outcome = HttpResponse.jsonError 400 "Missing message" := by
  refine ⟨?_, ?_, rfl⟩ <;> simp [handleChat, hm]

/-- C7 witness: the theorem at a concrete request and a stream that
fails after one text chunk. -/
theorem stream_failures_absorbed_witness :
    ("ls" : String) ≠ "" ∧
    (handleChat "s1" (some "ls") (SdkOutcome.failAfter [Chunk.legacyText "a"] "boom") =
      HttpResponse.sse ((serveChunks "s1" "" [Chunk.legacyText "a"]).2 ++
        [WireEvent.errorEv "boom", WireEvent.done]) ∧
    handleChat "s1" (some "ls") (SdkOutcome.ok [Chunk.legacyText "a"]) =
      HttpResponse.sse ((serveChunks "s1" "" [Chunk.legacyText "a"]).2 ++ [WireEvent.done]) ∧
    handleChat "s1" none (SdkOutcome.ok []) = HttpResponse.jsonError 400 "Missing message") :=
  ⟨by decide, stream_failures_absorbed "s1" "ls" (by decide) [Chunk.legacyText "a"]
    "boom" (SdkOutcome.ok [])⟩

/-- C10: invariant of the server's per-turn emission — every `text`
event written during a turn carries a `fullText` equal to the
concatenation, in emission order, of the `text` fields of all `text`
events emitted so far in that turn (including the current one), because
both the assistant-chunk branch and the legacy-text branch thread
`fullResponse` through the loop; consequently the `fullText` lengths
across a turn are monotonically non-decreasing. -/
theorem server_fullText_invariant (sid : String) (chunks : List Chunk)
    (i j : Nat) (pi pj : String × String) (hij : i ≤ j)
    (hi : (textPairs (serveChunks sid "" chunks).2)[i]? = some pi)
    (hj : (textPairs (serveChunks sid "" chunks).2)[j]? = some pj) :
    pi.2 = concatTexts ((textPairs (serveChunks sid "" chunks).2).take (i + 1)) ∧
    pi.2.length ≤ pj.2.length := by
  have h1 := serveChunks_fullText sid chunks "" i pi hi
  have h2 := serveChunks_fullText sid chunks "" j pj hj
  rw [String.empty_append] at h1 h2
  refine ⟨h1, ?_⟩
  rw [h1, h2]
  exact concatTexts_take_le _ (i + 1) (j + 1) (by omega)

/-- C10 witness: the theorem at a turn of two legacy text chunks `"a"`
then `"b"`, whose second `text` event carries `fullText = "ab"`. -/
theorem server_fullText_invariant_witness :
    (0 : Nat) ≤ 1 ∧
    (textPairs (serveChunks "s1" "" [Chunk.legacyText "a", Chunk.legacyText "b"]).2)[0]? =
      some ("a", "a") ∧
    (textPairs (serveChunks "s1" "" [Chunk.legacyText "a", Chunk.legacyText "b"]).2)[1]? =
      some ("b", "ab") ∧
    ((("a", "a") : String × String).2 =
      concatTexts ((textPairs (serveChunks "s1" ""
        [Chunk.legacyText "a", Chunk.legacyText "b"]).2).take (0 + 1)) ∧
     (("a", "a") : String × String).2.length ≤ (("b", "ab") : String × String).2.length) :=
  ⟨Nat.zero_le 1, by decide, by decide,
    server_fullText_invariant "s1" [Chunk.legacyText "a", Chunk.legacyText "b"]
      0 1 ("a", "a") ("b", "ab") (Nat.zero_le 1) (by decide) (by decide)⟩

/-- C1 (amended): for every sequence of `text` events whose last event
carries a non-empty `fullText`, the final assistant content equals
exactly that `fullText` — replaced wholesale, never a concatenation with
earlier deltas.  The non-emptiness proviso is forced by the JS `||` in
`parsed.fullText || parsed.text`: an empty `fullText`, though present,
is falsy and the code falls back to the delta. -/
theorem fullText_authoritative (s : ClientState) (evs : List TextEv) (e : TextEv)
    (fs : String) (h0 : s.currentAssistant = none)
    (h1 : ∀ m ∈ s.messages, m.id ≠ MsgId.assistantStamp s.now)
    (hf : e.fullText = some fs) (hfs : fs ≠ "") :
    assistantContent (processFrames s ((evs ++ [e]).map textFrame)) =
      some (some fs) := by
  have hjs : ∀ t, jsOr e.fullText t = some fs := by
    intro t; rw [hf]; simp [jsOr, hfs]
  cases evs with
  | nil =>
      have hopen : OpenAsst (processText s e.text e.fullText e.messageId)
          s.messages (MsgId.assistantStamp s.now) s.now
          (jsOr e.fullText e.text) e.messageId := by
        rw [processText_create s e.text e.fullText e.messageId h0 h1]
        exact ⟨rfl, rfl, h1⟩
      rw [List.nil_append]
      rw [show processFrames s ([e].map textFrame) =
        processText s e.text e.fullText e.messageId from rfl]
      rw [assistantContent_of_openAsst _ _ _ _ _ _ hopen, hjs]
  | cons e0 rest =>
      have hopen : OpenAsst (processText s e0.text e0.fullText e0.messageId)
          s.messages (MsgId.assistantStamp s.now) s.now
          (jsOr e0.fullText e0.text) e0.messageId := by
        rw [processText_create s e0.text e0.fullText e0.messageId h0 h1]
        exact ⟨rfl, rfl, h1⟩
      have hrun := processText_run (rest ++ [e]) _ _ _ _ _ _ hopen
      have hfold : (rest ++ [e]).foldl (fun _acc ev => jsOr ev.fullText ev.text)
          (jsOr e0.fullText e0.text) = some fs := by
        rw [List.foldl_append]
        exact hjs e.text
      rw [show processFrames s (((e0 :: rest) ++ [e]).map textFrame) =
        processFrames (processText s e0.text e0.fullText e0.messageId)
          ((rest ++ [e]).map textFrame) from rfl]
      rw [assistantContent_of_openAsst _ _ _ _ _ _ hrun, hfold]

/-- C1 witness: the amended theorem at a fresh turn receiving the delta
event (`"Hi"`, full `"Hi"`) and then (`"!"`, full `"Hi!"`): the final
content is the last `fullText` `"Hi!"`, not `"HiHi!"`. -/
theorem fullText_authoritative_witness :
    clientInit.currentAssistant = none ∧
    (∀ m ∈ clientInit.messages, m.id ≠ MsgId.assistantStamp clientInit.now) ∧
    (TextEv.mk (some "!") (some "Hi!") none).fullText = some "Hi!" ∧
    ("Hi!" : String) ≠ "" ∧
    assistantContent (processFrames clientInit
      (([TextEv.mk (some "Hi") (some "Hi") none] ++
        [TextEv.mk (some "!") (some "Hi!") none]).map textFrame)) =
      some (some "Hi!") :=
  ⟨rfl, by simp [clientInit], rfl, by decide,
    fullText_authoritative clientInit [TextEv.mk (some "Hi") (some "Hi") none]
      (TextEv.mk (some "!") (some "Hi!") none) "Hi!" rfl (by simp [clientInit])
      rfl (by decide)⟩

/-- C1 counterexample: when the last `text` event carries a present but
empty `fullText` (`fullText = ""`, delta `"Bye"`), the final assistant
content is `"Bye"`, not the last received `fullText` value `""` — the
claim as stated fails on the JS `||` fallback. -/
theorem fullText_empty_not_authoritative :
    assistantContent (processFrames clientInit
      ([TextEv.mk (some "Hi") (some "Hi") none,
        TextEv.mk (some "Bye") (some "") none].map textFrame)) =
      some (some "Bye") ∧
    assistantContent (processFrames clientInit
      ([TextEv.mk (some "Hi") (some "Hi") none,
        TextEv.mk (some "Bye") (some "") none].map textFrame)) ≠
      some (some "") := by
  constructor <;> decide

/-- C3 (amended): for every sequence of matched `tool_use(k)` /
`tool_result(k)` pairs with pairwise-distinct, non-empty invocation ids,
processed from a state whose log mentions none of those ids, the message
log gains exactly one `tool_use` and exactly one `tool_result` message
per id, with the `tool_use` preceding the `tool_result`; the correlation
table, however, is not emptied — it retains an entry for every id,
marked complete (`Map.set` with `isComplete: true`, never a delete). -/
theorem matched_pairs_log_and_table (ps : List ToolPair) :
    ∀ s : ClientState, (ps.map ToolPair.id).Nodup →
      (∀ p ∈ ps, p.id ≠ "") →
      (∀ p ∈ ps, s.messages.countP (isUseFor p.id) = 0 ∧
        s.messages.countP (isResFor p.id) = 0) →
      (∀ p ∈ ps, ∃ e, mapGet (processFrames s (ps.flatMap pairFrames)).tools p.id =
          some e ∧ e.isComplete = true) ∧
      (∀ p ∈ ps, (processFrames s (ps.flatMap pairFrames)).messages.countP
          (isUseFor p.id) = 1 ∧
        (processFrames s (ps.flatMap pairFrames)).messages.countP
          (isResFor p.id) = 1) ∧
      (∀ p ∈ ps, ∃ i j : Nat, i < j ∧
        (∃ u, (processFrames s (ps.flatMap pairFrames)).messages[i]? = some u ∧
          isUseFor p.id u = true) ∧
        (∃ r, (processFrames s (ps.flatMap pairFrames)).messages[j]? = some r ∧
          isResFor p.id r = true)) := by
  induction ps with
  | nil =>
      intro s _ _ _
      exact ⟨fun p hp => absurd hp (List.not_mem_nil p),
        fun p hp => absurd hp (List.not_mem_nil p),
        fun p hp => absurd hp (List.not_mem_nil p)⟩
  | cons p ps ih =>
      intro s hnd hne hfresh
      have hpne : p.id ≠ "" := hne p (List.mem_cons_self p ps)
      have hnd' : (p.id :: ps.map ToolPair.id).Nodup := by simpa using hnd
      have hndtail : (ps.map ToolPair.id).Nodup := (List.nodup_cons.mp hnd').2
      have hpnotin : p.id ∉ ps.map ToolPair.id := (List.nodup_cons.mp hnd').1
      have hq_ne_p : ∀ q ∈ ps, q.id ≠ p.id := by
        intro q hq hcontra
        exact hpnotin (hcontra ▸ List.mem_map_of_mem ToolPair.id hq)
      rw [List.flatMap_cons, processFrames_append, processPair s p hpne]
      have hfresh' : ∀ q ∈ ps,
          (applyPair s p).messages.countP (isUseFor q.id) = 0 ∧
          (applyPair s p).messages.countP (isResFor q.id) = 0 := by
        intro q hq
        have h0 := hfresh q (List.mem_cons_of_mem p hq)
        have hpq : p.id ≠ q.id := fun e => hq_ne_p q hq e.symm
        constructor <;>
          simp [applyPair, List.countP_append, h0.1, h0.2,
            countP_pairMsgs_use, countP_pairMsgs_res, hpq]
      obtain ⟨ihA, ihB, ihC⟩ := ih (applyPair s p) hndtail
        (fun q hq => hne q (List.mem_cons_of_mem p hq)) hfresh'
      obtain ⟨tail, htail, hcount⟩ :=
        pairsRun_msgs ps (applyPair s p)
          (fun q hq => hne q (List.mem_cons_of_mem p hq))
      obtain ⟨hcu, hcr⟩ := hcount p.id hq_ne_p
      have hmsgs : (processFrames (applyPair s p) (ps.flatMap pairFrames)).messages =
          s.messages ++ (pairMsgs p s.now ++ tail) := by
        rw [htail]; simp [applyPair]
      refine ⟨?_, ?_, ?_⟩
      · intro q hq
        rcases List.mem_cons.mp hq with rfl | hq
        · rw [pairsRun_tools ps (applyPair s q) q.id
            (fun r hr => hne r (List.mem_cons_of_mem q hr)) hq_ne_p]
          exact ⟨completedExec q s.now, by simp [applyPair, mapGet_mapSet], rfl⟩
        · exact ihA q hq
      · intro q hq
        rcases List.mem_cons.mp hq with rfl | hq
        · have h0 := hfresh q (List.mem_cons_self q ps)
          rw [hmsgs]
          constructor <;>
            simp [List.countP_append, h0.1, h0.2, hcu, hcr,
              countP_pairMsgs_use, countP_pairMsgs_res]
        · exact ihB q hq
      · intro q hq
        rcases List.mem_cons.mp hq with rfl | hq
        · refine ⟨s.messages.length, s.messages.length + 1, Nat.lt_succ_self _, ?_, ?_⟩
          · refine ⟨{ id := MsgId.toolUseFor q.id,
                       timestamp := s.now,
                       kind := MsgKind.toolUse q.name q.input q.id },
              ?_, by simp [isUseFor]⟩
            rw [hmsgs, List.getElem?_append_right (Nat.le_refl _)]
            simp [pairMsgs]
          · refine ⟨{ id := MsgId.toolResultFor q.id,
                       timestamp := s.now + 1,
                       kind := MsgKind.toolResult q.name (some q.input) q.output
                         (some q.id) (if q.isError then some q.output else none) },
              ?_, by simp [isResFor]⟩
            rw [hmsgs, List.getElem?_append_right (Nat.le_succ_of_le (Nat.le_refl _))]
            simp [pairMsgs]
        · exact ihC q hq

/-- C3 counterexample: Scenario B — after the matched pair for `"t1"`
(tool `Bash`) is processed, the correlation table still contains an
entry for `"t1"` (marked complete); the claim that the table is empty
fails. -/
theorem tool_table_not_emptied :
    mapGet (processFrames clientInit
      (pairFrames (ToolPair.mk "t1" "Bash" (ToolInput.mk none) "a.txt" false))).tools
      "t1" ≠ none := by
  decide

/-- C3 witness: the amended theorem at Scenario B from the empty client
state. -/
theorem matched_pairs_log_and_table_witness :
    (([ToolPair.mk "t1" "Bash" (ToolInput.mk none) "a.txt" false].map
        ToolPair.id).Nodup ∧
      (∀ p ∈ [ToolPair.mk "t1" "Bash" (ToolInput.mk none) "a.txt" false],
        p.id ≠ "") ∧
      (∀ p ∈ [ToolPair.mk "t1" "Bash" (ToolInput.mk none) "a.txt" false],
        clientInit.messages.countP (isUseFor p.id) = 0 ∧
        clientInit.messages.countP (isResFor p.id) = 0)) ∧
    ((∀ p ∈ [ToolPair.mk "t1" "Bash" (ToolInput.mk none) "a.txt" false],
        ∃ e, mapGet (processFrames clientInit
          ([ToolPair.mk "t1" "Bash" (ToolInput.mk none) "a.txt" false].flatMap
            pairFrames)).tools p.id = some e ∧ e.isComplete = true) ∧
      (∀ p ∈ [ToolPair.mk "t1" "Bash" (ToolInput.mk none) "a.txt" false],
        (processFrames clientInit
          ([ToolPair.mk "t1" "Bash" (ToolInput.mk none) "a.txt" false].flatMap
            pairFrames)).messages.countP (isUseFor p.id) = 1 ∧
        (processFrames clientInit
          ([ToolPair.mk "t1" "Bash" (ToolInput.mk none) "a.txt" false].flatMap
            pairFrames)).messages.countP (isResFor p.id) = 1) ∧
      (∀ p ∈ [ToolPair.mk "t1" "Bash" (ToolInput.mk none) "a.txt" false],
        ∃ i j : Nat, i < j ∧
        (∃ u, (processFrames clientInit
          ([ToolPair.mk "t1" "Bash" (ToolInput.mk none) "a.txt" false].flatMap
            pairFrames)).messages[i]? = some u ∧ isUseFor p.id u = true) ∧
        (∃ r, (processFrames clientInit
          ([ToolPair.mk "t1" "Bash" (ToolInput.mk none) "a.txt" false].flatMap
            pairFrames)).messages[j]? = some r ∧ isResFor p.id r = true))) :=
  ⟨⟨by decide, by decide, by decide⟩,
    matched_pairs_log_and_table
      [ToolPair.mk "t1" "Bash" (ToolInput.mk none) "a.txt" false] clientInit
      (by decide) (by decide) (by decide)⟩

/-- C4: invariant over every reachable client state (any interleaving of
turn starts and decoded frames applied to the empty state): a
`tool_result` message referencing invocation id `k` never appears in the
log before a `tool_use` message with the same id — whenever the entry at
position `j` is a `tool_result` for `k`, some earlier position `i < j`
holds a `tool_use` for `k`. -/
theorem tool_result_never_before_tool_use (acts : List Act) (j : Nat) (r : Msg)
    (k : String) (hj : (runActs acts).messages[j]? = some r)
    (hk : isResFor k r = true) :
    ∃ i : Nat, i < j ∧ ∃ u, (runActs acts).messages[i]? = some u ∧
      isUseFor k u = true :=
  (logInv_runActs acts).2 j r hj k hk

/-- C4 witness: the theorem at the concrete two-frame run delivering the
matched pair for `"t1"`; the `tool_result` message sits at position 1
and a `tool_use` for `"t1"` is found before it. -/
theorem tool_result_never_before_tool_use_witness :
    (runActs
        [Act.frame (Frame.event (Parsed.debug ⟨"assistant",
          some [ContentItem.toolUse "t1" "Bash" (ToolInput.mk none)]⟩)),
         Act.frame (Frame.event (Parsed.debug ⟨"user",
          some [ContentItem.toolResult "t1" "a.txt" false]⟩))]).messages[1]? =
      some { id := MsgId.toolResultFor "t1", timestamp := 1,
             kind := MsgKind.toolResult "Bash" (some (ToolInput.mk none)) "a.txt"
               (some "t1") none } ∧
    isResFor "t1"
      { id := MsgId.toolResultFor "t1", timestamp := 1,
        kind := MsgKind.toolResult "Bash" (some (ToolInput.mk none)) "a.txt"
          (some "t1") none } = true ∧
    (∃ i : Nat, i < 1 ∧ ∃ u,
      (runActs
        [Act.frame (Frame.event (Parsed.debug ⟨"assistant",
          some [ContentItem.toolUse "t1" "Bash" (ToolInput.mk none)]⟩)),
         Act.frame (Frame.event (Parsed.debug ⟨"user",
          some [ContentItem.toolResult "t1" "a.txt" false]⟩))]).messages[i]? =
        some u ∧ isUseFor "t1" u = true) :=
  ⟨by decide, by decide,
    tool_result_never_before_tool_use
      [Act.frame (Frame.event (Parsed.debug ⟨"assistant",
        some [ContentItem.toolUse "t1" "Bash" (ToolInput.mk none)]⟩)),
       Act.frame (Frame.event (Parsed.debug ⟨"user",
        some [ContentItem.toolResult "t1" "a.txt" false]⟩))]
      1 { id := MsgId.toolResultFor "t1", timestamp := 1,
          kind := MsgKind.toolResult "Bash" (some (ToolInput.mk none)) "a.txt"
            (some "t1") none }
      "t1" (by decide) (by decide)⟩

end PAWeb
